import Mathlib

/-!
Shallow embedding of the `go-loadbalancer` repository (package `balancer`
plus `cmd/main.go`) and proofs about it.

Modelling conventions:
* Go strings are `List Char` at parsing level and `String` for stored fields.
* Go `float64` ratios are modelled as exact rationals `ℚ`; the constant
  `1e18` is exactly representable as a `float64`, and all ratios reachable
  from `int32` connection counts and nonzero integer weights are far below
  it, so the sentinel comparisons of the source are preserved.
* Machine counters wrap explicitly: `atomic.Int32` as `Int` with a
  wrap-around into `[-2^31, 2^31)`, `atomic.Uint32`/`atomic.Uint64` as `Nat`
  reduced mod `2^32` / `2^64`.
* A Go pointer into the server pool is modelled as an index into the list.
* Network effects are oracle parameters: a health probe outcome is a
  `ProbeResult`, the reverse-proxy forward outcome is a `FwdOutcome`, and
  `time.Now().Unix()` is an explicit `now : Int` argument.
-/

namespace Balancer

/-- Wrap an unbounded integer into the signed 32-bit range, as Go's
`atomic.Int32` arithmetic does. -/
def i32wrap (x : Int) : Int := (x + 2 ^ 31) % 2 ^ 32 - 2 ^ 31

/-- Go `atomic.Int32.Add`. -/
def i32add (x d : Int) : Int := i32wrap (x + d)

/-- Go `atomic.Uint64.Add(1)` and the `wlc.totalRequests++` update. -/
def u64add (x d : Nat) : Nat := (x + d) % 2 ^ 64

/-- Go `atomic.Uint32.Add(1)` for the failure counter. -/
def u32add (x d : Nat) : Nat := (x + d) % 2 ^ 32

/-- The `Server` struct of `internal/balancer/server.go`.  The mutable
atomic fields are plain values here; the reverse proxy itself is part of
the opaque Forwarder capability and carries no state we reason about. -/
structure Server where
  url : String
  weight : Int
  activeConnections : Int
  requestCount : Nat
  isHealthy : Bool
  failureCount : Nat
  lastCheckTime : Int
deriving DecidableEq, Repr

instance : Inhabited Server :=
  ⟨{ url := "", weight := 0, activeConnections := 0, requestCount := 0,
     isHealthy := false, failureCount := 0, lastCheckTime := 0 }⟩

/-- The float64 literal `1e18` of the source, as an exact rational. -/
def sentinelRatio : ℚ := 10 ^ 18

/-- `Server.Ratio` from `server.go`: sentinel for an unhealthy server or a
zero weight, otherwise `activeConnections / weight`. -/
def Server.Ratio (s : Server) : ℚ :=
  if !s.isHealthy then sentinelRatio
  else if s.weight = 0 then sentinelRatio
  else (s.activeConnections : ℚ) / (s.weight : ℚ)

/-- Outcome of one health-probe transport call (`client.Get` plus the
status code of the response). -/
inductive ProbeResult where
  | transportError : ProbeResult
  | status : Nat → ProbeResult
deriving DecidableEq, Repr

/-- `Server.HealthCheck` from `server.go`: stores the probe time first,
then on transport error or non-200 status bumps `FailureCount` and reports
an error (`false`); on a 200 response resets `FailureCount` and reports
success (`true`). -/
def Server.HealthCheck (s : Server) (now : Int) (r : ProbeResult) :
    Server × Bool :=
  let s1 := { s with lastCheckTime := now }
  match r with
  | .transportError =>
      ({ s1 with failureCount := u32add s1.failureCount 1 }, false)
  | .status code =>
      if code ≠ 200 then
        ({ s1 with failureCount := u32add s1.failureCount 1 }, false)
      else
        ({ s1 with failureCount := 0 }, true)

/-- `NewServer` from `server.go`: fresh counters, healthy, probe clock
initialised to the current time.  The `url.Parse` failure path is not
modelled (no input in this development exercises it); note that the weight
is stored without any validation. -/
def NewServer (rawURL : String) (weight : Int) (now : Int) : Server :=
  { url := rawURL, weight := weight, activeConnections := 0,
    requestCount := 0, isHealthy := true, failureCount := 0,
    lastCheckTime := now }

/-- The `WeightedLeastConnection` struct of `internal/balancer/wlc.go`. -/
structure WeightedLeastConnection where
  servers : List Server
  totalRequests : Nat
deriving DecidableEq, Repr

/-- `NewWeightedLeastConnection`: the `totalRequests` field starts at its
Go zero value. -/
def NewWeightedLeastConnection (servers : List Server) :
    WeightedLeastConnection :=
  { servers := servers, totalRequests := 0 }

/-- The selection loop of `NextServer`: `best` is the index of the current
best server (`nil` pointer ↦ `none`), `bestRatio` its ratio (initially
`1e18`), `i` the index of the head of the remaining list. -/
def nextServerLoop :
    List Server → Option Nat → ℚ → Nat → Option Nat
  | [], best, _, _ => best
  | server :: rest, best, bestRatio, i =>
      if server.Ratio < bestRatio then
        nextServerLoop rest (some i) server.Ratio (i + 1)
      else
        nextServerLoop rest best bestRatio (i + 1)

/-- `WeightedLeastConnection.NextServer`, index form: `none` for an empty
pool, otherwise the loop result starting from a nil best and ratio
`1e18`. -/
def WeightedLeastConnection.nextServerIdx
    (wlc : WeightedLeastConnection) : Option Nat :=
  if wlc.servers.length = 0 then none
  else nextServerLoop wlc.servers none sentinelRatio 0

/-- `WeightedLeastConnection.NextServer` as in the source, returning the
selected server value (the pointer dereferenced). -/
def WeightedLeastConnection.NextServer
    (wlc : WeightedLeastConnection) : Option Server :=
  (wlc.nextServerIdx).map (fun i => wlc.servers.getD i default)

/-- Replace the element at index `i` by `f` of it (mutation through the
`*Server` pointer in the Go source). -/
def modifyIdx : List Server → Nat → (Server → Server) → List Server
  | [], _, _ => []
  | s :: rest, 0, f => f s :: rest
  | s :: rest, n + 1, f => s :: modifyIdx rest n f

/-- One probe step of `performHealthChecks` for one server: run
`HealthCheck`, then store `err == nil` into `IsHealthy`. -/
def healthCheckStep (s : Server) (now : Int) (r : ProbeResult) : Server :=
  let hc := s.HealthCheck now r
  { hc.1 with isHealthy := hc.2 }

/-- Helper for `performHealthChecks`: probe each server in order, the
oracle `probe` giving the transport outcome per pool index. -/
def healthChecksFrom (now : Int) (probe : Nat → ProbeResult) :
    Nat → List Server → List Server
  | _, [] => []
  | i, s :: rest => healthCheckStep s now (probe i) :: healthChecksFrom now probe (i + 1) rest

/-- `WeightedLeastConnection.performHealthChecks`: every server is probed
once and its health flag rewritten from the probe outcome. -/
def WeightedLeastConnection.performHealthChecks
    (wlc : WeightedLeastConnection) (now : Int)
    (probe : Nat → ProbeResult) : WeightedLeastConnection :=
  { wlc with servers := healthChecksFrom now probe 0 wlc.servers }

/-- `handleHealthEndpoint`: 503 when no server is healthy, otherwise
200.  Only the written status code is modelled. -/
def WeightedLeastConnection.handleHealthEndpoint
    (wlc : WeightedLeastConnection) : Nat :=
  if (wlc.servers.filter (fun s => s.isHealthy)).length = 0 then 503
  else 200

/-- `handleMetricsEndpoint`: always 200; the headline figure of the
report, the pool-wide total request counter, is returned alongside. -/
def WeightedLeastConnection.handleMetricsEndpoint
    (wlc : WeightedLeastConnection) : Nat × Nat :=
  (200, wlc.totalRequests)

/-- Outcome of the opaque Forwarder call
(`server.ReverseProxy.ServeHTTP`). -/
inductive FwdOutcome where
  | ok : FwdOutcome
  | errored : FwdOutcome
  | crash : FwdOutcome
deriving DecidableEq, Repr

/-- Status the client observes for a forward outcome: the backend's reply,
the 502 written by the proxy's ErrorHandler, or 0 when the forwarder
panicked and no status was written.  The deferred decrement of
`ActiveConnections` runs in every case. -/
def statusOfOutcome : FwdOutcome → Nat
  | .ok => 200
  | .errored => 502
  | .crash => 0

/-- `WeightedLeastConnection.ServeHTTP` from `wlc.go`: reserved paths are
intercepted; otherwise select, reject when no (healthy) server came back,
else increment the server's connection and request counters and the
pool-wide total, forward, and decrement the connection count on the way
out (the `defer`, which also fires on a forwarder panic). -/
def WeightedLeastConnection.ServeHTTP
    (wlc : WeightedLeastConnection) (path : String)
    (outcome : FwdOutcome) : WeightedLeastConnection × Nat :=
  if path = "/health" ∨ path = "/healthz" then
    (wlc, wlc.handleHealthEndpoint)
  else if path = "/metrics" then
    (wlc, wlc.handleMetricsEndpoint.1)
  else
    match wlc.nextServerIdx with
    | none => (wlc, 503)
    | some i =>
        let server := wlc.servers.getD i default
        if !server.isHealthy then (wlc, 503)
        else
          let acquired := modifyIdx wlc.servers i (fun s =>
            { s with activeConnections := i32add s.activeConnections 1,
                     requestCount := u64add s.requestCount 1 })
          let total1 := u64add wlc.totalRequests 1
          let released := modifyIdx acquired i (fun s =>
            { s with activeConnections := i32add s.activeConnections (-1) })
          ({ servers := released, totalRequests := total1 },
           statusOfOutcome outcome)

/-- Iterated dispatch: one `ServeHTTP` call per forward outcome in the
list, all against the same request path. -/
def serveAll (path : String) (outs : List FwdOutcome)
    (wlc : WeightedLeastConnection) : WeightedLeastConnection :=
  outs.foldl (fun w o => (w.ServeHTTP path o).1) wlc

/-! Embedding of `cmd/main.go`'s `parseServerInput`, at the level of
character lists (a Go string is a byte slice; all inputs here are
ASCII). -/

/-- ASCII white space, as relevant to Go's `strings.TrimSpace` on the
inputs at hand. -/
def isSpaceChar (c : Char) : Bool :=
  c = ' ' || c = '\t' || c = '\n' || c = '\r'

/-- Drop leading white space. -/
def trimLeftChars : List Char → List Char
  | [] => []
  | c :: r => if isSpaceChar c then trimLeftChars r else c :: r

/-- Go `strings.TrimSpace`. -/
def trimSpace (l : List Char) : List Char :=
  ((trimLeftChars ((trimLeftChars l).reverse)).reverse)

/-- Go `strings.Split`: cut around every occurrence of the separator
(`n` separators yield `n + 1` pieces). -/
def splitOnChar (sep : Char) : List Char → List (List Char)
  | [] => [[]]
  | c :: r =>
      if c = sep then [] :: splitOnChar sep r
      else
        match splitOnChar sep r with
        | [] => [[c]]
        | p :: ps => (c :: p) :: ps

/-- Helper for `beginsWith`, recursing on the required leading
segment. -/
def beginsWithAux : List Char → List Char → Bool
  | [], _ => true
  | _ :: _, [] => false
  | p :: ps, c :: cs => (c = p) && beginsWithAux ps cs

/-- Go `strings.HasPrefix` with the pattern as second argument. -/
def beginsWith (text pre : List Char) : Bool := beginsWithAux pre text

/-- Accumulate decimal digits; `none` on any non-digit. -/
def digitsToNatAux : Nat → List Char → Option Nat
  | acc, [] => some acc
  | acc, c :: r =>
      if c.isDigit then digitsToNatAux (acc * 10 + (c.toNat - 48)) r
      else none

/-- A non-empty all-digit run, as a number. -/
def digitsToNat : List Char → Option Nat
  | [] => none
  | l => digitsToNatAux 0 l

/-- Go `strconv.Atoi` (overflow of 64-bit `int` not modelled; every weight
this development evaluates is tiny). -/
def atoi (l : List Char) : Option Int :=
  match l with
  | '+' :: r => (digitsToNat r).map (fun n => (n : Int))
  | '-' :: r => (digitsToNat r).map (fun n => -(n : Int))
  | _ => (digitsToNat l).map (fun n => (n : Int))

/-- The characters of `"http://"`. -/
def httpScheme : List Char := ['h', 't', 't', 'p', ':', '/', '/']

/-- The characters of `"https://"`. -/
def httpsScheme : List Char := ['h', 't', 't', 'p', 's', ':', '/', '/']

/-- The per-entry loop of `parseServerInput`, carrying the servers built
so far (in reverse) and the construction clock for `NewServer`. -/
def parseEntries (now : Int) :
    List (List Char) → List Server → Except String (List Server)
  | [], acc =>
      if acc.length = 0 then .error "no valid backend servers configured"
      else .ok acc.reverse
  | part :: rest, acc =>
      let part := trimSpace part
      if part.length = 0 then parseEntries now rest acc
      else
        match splitOnChar '/' part with
        | [rawURL, weightStr] =>
            let rawURL :=
              if !beginsWith rawURL httpScheme &&
                 !beginsWith rawURL httpsScheme then
                httpScheme ++ rawURL
              else rawURL
            match atoi weightStr with
            | none => .error "invalid weight"
            | some w =>
                if w < 1 then .error "invalid weight"
                else
                  parseEntries now rest
                    (NewServer (String.mk rawURL) w now :: acc)
        | _ => .error "invalid format"

/-- `parseServerInput` from `cmd/main.go`: trim the whole line, split on
commas, and run the per-entry loop. -/
def parseServerInput (input : String) (now : Int) :
    Except String (List Server) :=
  parseEntries now (splitOnChar ',' (trimSpace input.data)) []

/-- An entry whose weight field is present but is not an integer `≥ 1`
(the shape rejected by the weight check of `parseServerInput`). -/
def badWeightPart (part : List Char) : Bool :=
  ((trimSpace part).length != 0) &&
  (match splitOnChar '/' (trimSpace part) with
   | [_, weightStr] =>
       (match atoi weightStr with
        | none => true
        | some w => decide (w < 1))
   | _ => false)

/-! Lemmas about the `NextServer` selection loop. -/

theorem nextServerLoop_no_update (l : List Server) (best : Option Nat)
    (br : ℚ) (i : Nat) (h : ∀ s ∈ l, ¬ s.Ratio < br) :
    nextServerLoop l best br i = best := by
  induction l generalizing best br i with
  | nil => rfl
  | cons s rest ih =>
      rw [nextServerLoop, if_neg (h s (List.mem_cons_self s rest))]
      exact ih _ _ _ fun t ht => h t (List.mem_cons_of_mem _ ht)

theorem nextServerLoop_acc_some (l : List Server) (b : Nat) (br : ℚ)
    (i : Nat) : ∃ r, nextServerLoop l (some b) br i = some r := by
  induction l generalizing b br i with
  | nil => exact ⟨b, rfl⟩
  | cons s rest ih =>
      rw [nextServerLoop]
      by_cases hs : s.Ratio < br
      · rw [if_pos hs]; exact ih i _ _
      · rw [if_neg hs]; exact ih b br _

theorem nextServerLoop_some_sound (l : List Server) (best : Option Nat)
    (br : ℚ) (i r : Nat) (h : nextServerLoop l best br i = some r) :
    best = some r ∨
      ∃ k, ∃ hk : k < l.length, r = i + k ∧ l[k].Ratio < br := by
  induction l generalizing best br i with
  | nil => exact Or.inl h
  | cons s rest ih =>
      rw [nextServerLoop] at h
      by_cases hs : s.Ratio < br
      · rw [if_pos hs] at h
        rcases ih _ _ _ h with h1 | ⟨k, hk, hr, hlt⟩
        · injection h1 with h1
          exact Or.inr ⟨0, by simp, by omega, by simpa using hs⟩
        · refine Or.inr ⟨k + 1, by simpa using hk, by omega, ?_⟩
          simpa using lt_trans hlt hs
      · rw [if_neg hs] at h
        rcases ih _ _ _ h with h1 | ⟨k, hk, hr, hlt⟩
        · exact Or.inl h1
        · exact Or.inr ⟨k + 1, by simpa using hk, by omega, by simpa using hlt⟩

theorem nextServerLoop_min (l : List Server) (br : ℚ) (best : Option Nat)
    (i : Nat) (h : ∃ s ∈ l, s.Ratio < br) :
    ∃ k, ∃ hk : k < l.length,
      nextServerLoop l best br i = some (i + k) ∧
      l[k].Ratio < br ∧
      (∀ j (hj : j < l.length), l[k].Ratio ≤ l[j].Ratio) ∧
      (∀ j (hj : j < l.length), j < k → l[k].Ratio < l[j].Ratio) := by
  induction l generalizing br best i with
  | nil => simp at h
  | cons s rest ih =>
      rw [nextServerLoop]
      by_cases hs : s.Ratio < br
      · rw [if_pos hs]
        by_cases hrest : ∃ t ∈ rest, t.Ratio < s.Ratio
        · obtain ⟨k, hk, heq, hlt, hmin, hstrict⟩ :=
            ih s.Ratio (some i) (i + 1) hrest
          refine ⟨k + 1, by simpa using hk, ?_, ?_, ?_, ?_⟩
          · rw [heq]; congr 1; omega
          · simpa using lt_trans hlt hs
          · intro j hj
            match j, hj with
            | 0, _ => simpa using le_of_lt hlt
            | j + 1, hj => simpa using hmin j (by simpa using hj)
          · intro j hj hjk
            match j, hj with
            | 0, _ => simpa using hlt
            | j + 1, hj => simpa using hstrict j (by simpa using hj) (by omega)
        · push_neg at hrest
          have hnone := nextServerLoop_no_update rest (some i) s.Ratio (i + 1)
            fun t ht => not_lt.mpr (hrest t ht)
          refine ⟨0, by simp, ?_, by simpa using hs, ?_, ?_⟩
          · rw [hnone, Nat.add_zero]
          · intro j hj
            match j, hj with
            | 0, _ => exact le_refl _
            | j + 1, hj =>
                have hj' : j < rest.length := by simpa using hj
                simpa using hrest (rest[j]) (List.getElem_mem hj')
          · intro j hj hjk; omega
      · rw [if_neg hs]
        have hrest : ∃ t ∈ rest, t.Ratio < br := by
          obtain ⟨t, ht, hlt⟩ := h
          rcases List.mem_cons.mp ht with rfl | htr
          · exact absurd hlt hs
          · exact ⟨t, htr, hlt⟩
        obtain ⟨k, hk, heq, hlt, hmin, hstrict⟩ := ih br best (i + 1) hrest
        have hsle : br ≤ s.Ratio := not_lt.mp hs
        refine ⟨k + 1, by simpa using hk, ?_, by simpa using hlt, ?_, ?_⟩
        · rw [heq]; congr 1; omega
        · intro j hj
          match j, hj with
          | 0, _ => simpa using le_of_lt (lt_of_lt_of_le hlt hsle)
          | j + 1, hj => simpa using hmin j (by simpa using hj)
        · intro j hj hjk
          match j, hj with
          | 0, _ => simpa using lt_of_lt_of_le hlt hsle
          | j + 1, hj => simpa using hstrict j (by simpa using hj) (by omega)

/-! Lemmas about `Server.Ratio`. -/

theorem Ratio_of_unhealthy (s : Server) (h : s.isHealthy = false) :
    s.Ratio = sentinelRatio := by
  simp [Server.Ratio, h]

theorem Ratio_of_weight_zero (s : Server) (h : s.weight = 0) :
    s.Ratio = sentinelRatio := by
  simp [Server.Ratio, h]

theorem Ratio_of_healthy (s : Server) (hh : s.isHealthy = true)
    (hw : s.weight ≠ 0) :
    s.Ratio = (s.activeConnections : ℚ) / (s.weight : ℚ) := by
  simp [Server.Ratio, hh, hw]

theorem Ratio_lt_sentinel (s : Server) (hh : s.isHealthy = true)
    (hw : 1 ≤ s.weight) (hc : s.activeConnections < 2 ^ 31) :
    s.Ratio < sentinelRatio := by
  rw [Ratio_of_healthy s hh (by omega)]
  have hw0 : (0 : ℚ) < (s.weight : ℚ) := by
    exact_mod_cast (show (0 : Int) < s.weight by omega)
  rw [div_lt_iff₀ hw0]
  have h1 : (s.activeConnections : ℚ) < (2 : ℚ) ^ 31 := by exact_mod_cast hc
  have h3 : sentinelRatio * 1 ≤ sentinelRatio * (s.weight : ℚ) := by
    apply mul_le_mul_of_nonneg_left
    · exact_mod_cast hw
    · norm_num [sentinelRatio]
  calc (s.activeConnections : ℚ) < (2 : ℚ) ^ 31 := h1
    _ ≤ sentinelRatio * 1 := by norm_num [sentinelRatio]
    _ ≤ sentinelRatio * (s.weight : ℚ) := h3

theorem healthy_of_Ratio_lt (s : Server) (h : s.Ratio < sentinelRatio) :
    s.isHealthy = true ∧ s.weight ≠ 0 := by
  constructor
  · by_contra hh
    rw [Ratio_of_unhealthy s (by simpa using hh)] at h
    exact lt_irrefl _ h
  · intro hw
    rw [Ratio_of_weight_zero s hw] at h
    exact lt_irrefl _ h

/-! Facts about `NextServer` at the pool level. -/

theorem nextServerIdx_some_sound (wlc : WeightedLeastConnection) (r : Nat)
    (h : wlc.nextServerIdx = some r) :
    ∃ hr : r < wlc.servers.length, wlc.servers[r].Ratio < sentinelRatio := by
  unfold WeightedLeastConnection.nextServerIdx at h
  by_cases hl : wlc.servers.length = 0
  · rw [if_pos hl] at h; exact absurd h (by simp)
  · rw [if_neg hl] at h
    rcases nextServerLoop_some_sound _ _ _ _ _ h with h1 | ⟨k, hk, hr, hlt⟩
    · exact absurd h1 (by simp)
    · obtain rfl : r = k := by omega
      exact ⟨hk, hlt⟩

/-- C8: whenever `NextServer` yields a server, that server's ratio is
strictly below the `1e18` sentinel, hence it is healthy with nonzero
weight; in particular an unhealthy server is never returned, even when
every server in the pool is unhealthy. -/
theorem nextServer_isHealthy (wlc : WeightedLeastConnection) (s : Server)
    (h : wlc.NextServer = some s) :
    s.isHealthy = true ∧ s.weight ≠ 0 ∧ s.Ratio < sentinelRatio := by
  unfold WeightedLeastConnection.NextServer at h
  rcases ho : wlc.nextServerIdx with _ | r
  · rw [ho] at h; simp at h
  · rw [ho] at h
    obtain ⟨hr, hlt⟩ := nextServerIdx_some_sound wlc r ho
    have hs : s = wlc.servers[r] := by
      simp only [Option.map_some'] at h
      rw [← Option.some_inj.mp h, List.getD_eq_getElem _ _ hr]
    obtain ⟨hh, hw⟩ := healthy_of_Ratio_lt _ (hs ▸ hlt)
    exact ⟨hh, hw, hs ▸ hlt⟩

/-- Witness for `nextServer_isHealthy` at a one-server pool. -/
theorem nextServer_isHealthy_witness :
    (NewWeightedLeastConnection [NewServer "http://a" 1 5]).NextServer =
      some (NewServer "http://a" 1 5) ∧
    ((NewServer "http://a" 1 5).isHealthy = true ∧
      (NewServer "http://a" 1 5).weight ≠ 0 ∧
      (NewServer "http://a" 1 5).Ratio < sentinelRatio) := by
  have h : (NewWeightedLeastConnection [NewServer "http://a" 1 5]).NextServer =
      some (NewServer "http://a" 1 5) := by
    norm_num [WeightedLeastConnection.NextServer,
      WeightedLeastConnection.nextServerIdx, nextServerLoop, Server.Ratio,
      NewServer, NewWeightedLeastConnection, sentinelRatio]
  exact ⟨h, nextServer_isHealthy
    (NewWeightedLeastConnection [NewServer "http://a" 1 5]) _ h⟩

/-- C1 counterexample: a pool holding exactly one (unhealthy) server is
non-empty, yet `NextServer` returns `none`, contradicting both "an
unhealthy first pool entry is returned when all servers are unhealthy"
and "`none` is returned only when the pool is empty". -/
theorem nextServer_allUnhealthy_cex :
    (NewWeightedLeastConnection
        [{ NewServer "http://a" 1 0 with isHealthy := false }]).NextServer
      = none ∧
    (NewWeightedLeastConnection
        [{ NewServer "http://a" 1 0 with isHealthy := false }]).servers
      ≠ [] := by
  refine ⟨by decide, by decide⟩

/-- C1 (amended): `NextServer` returns `none` exactly when the pool is
empty or every server carries a ratio at or above the sentinel (in
particular when every server is unhealthy); a sentinel-ratio server is
never returned. -/
theorem nextServer_none_iff (wlc : WeightedLeastConnection) :
    wlc.NextServer = none ↔
      wlc.servers = [] ∨ ∀ s ∈ wlc.servers, sentinelRatio ≤ s.Ratio := by
  unfold WeightedLeastConnection.NextServer WeightedLeastConnection.nextServerIdx
  by_cases hl : wlc.servers.length = 0
  · simp [hl, List.length_eq_zero.mp hl]
  · rw [if_neg hl]
    constructor
    · intro h
      have hnone : nextServerLoop wlc.servers none sentinelRatio 0 = none := by
        rcases ho : nextServerLoop wlc.servers none sentinelRatio 0 with _ | r
        · rfl
        · rw [ho] at h; simp at h
      right
      intro s hsm
      by_contra hlt
      push_neg at hlt
      obtain ⟨k, hk, heq, -⟩ :=
        nextServerLoop_min wlc.servers sentinelRatio none 0 ⟨s, hsm, hlt⟩
      rw [heq] at hnone
      simp at hnone
    · rintro (h | h)
      · exact absurd h (by intro h0; rw [h0] at hl; simp at hl)
      · rw [nextServerLoop_no_update _ _ _ _
          fun s hs => not_lt.mpr (h s hs)]
        rfl

/-- C2: for a pool of weight-validated servers with `int32`-range
connection counts and at least one healthy member, `NextServer` returns
the server of minimum load ratio, and among ties the earliest in pool
order (every strictly earlier server has a strictly larger ratio). -/
theorem nextServer_min_earliest (wlc : WeightedLeastConnection)
    (hwf : ∀ s ∈ wlc.servers, 1 ≤ s.weight ∧ s.activeConnections < 2 ^ 31)
    (hh : ∃ s ∈ wlc.servers, s.isHealthy = true) :
    ∃ k, ∃ hk : k < wlc.servers.length,
      wlc.NextServer = some (wlc.servers[k]) ∧
      (∀ j (hj : j < wlc.servers.length),
        wlc.servers[k].Ratio ≤ wlc.servers[j].Ratio) ∧
      (∀ j (hj : j < wlc.servers.length), j < k →
        wlc.servers[k].Ratio < wlc.servers[j].Ratio) := by
  obtain ⟨s, hsm, hsh⟩ := hh
  have hex : ∃ t ∈ wlc.servers, t.Ratio < sentinelRatio :=
    ⟨s, hsm, Ratio_lt_sentinel s hsh (hwf s hsm).1 (hwf s hsm).2⟩
  have hl : ¬ wlc.servers.length = 0 := by
    intro h0
    rw [List.length_eq_zero.mp h0] at hsm
    simp at hsm
  obtain ⟨k, hk, heq, hlt, hmin, hstrict⟩ :=
    nextServerLoop_min wlc.servers sentinelRatio none 0 hex
  refine ⟨k, hk, ?_, hmin, hstrict⟩
  unfold WeightedLeastConnection.NextServer WeightedLeastConnection.nextServerIdx
  rw [if_neg hl, heq]
  simp [List.getD_eq_getElem _ _ hk, List.getElem?_eq_getElem hk]

/-- The spec's tied-ratio scenario, ratios `[2, 1/2, 1/2]` (second and
third tied). -/
def tiedPool : WeightedLeastConnection :=
  NewWeightedLeastConnection
    [{ NewServer "http://a" 1 0 with activeConnections := 2 },
     { NewServer "http://b" 2 0 with activeConnections := 1 },
     { NewServer "http://c" 2 0 with activeConnections := 1 }]

/-- Witness for `nextServer_min_earliest` at `tiedPool`. -/
theorem nextServer_min_earliest_witness :
    ((∀ s ∈ tiedPool.servers,
        1 ≤ s.weight ∧ s.activeConnections < 2 ^ 31) ∧
      (∃ s ∈ tiedPool.servers, s.isHealthy = true)) ∧
    ∃ k, ∃ hk : k < tiedPool.servers.length,
      tiedPool.NextServer = some (tiedPool.servers[k]) ∧
      (∀ j (hj : j < tiedPool.servers.length),
        tiedPool.servers[k].Ratio ≤ tiedPool.servers[j].Ratio) ∧
      (∀ j (hj : j < tiedPool.servers.length), j < k →
        tiedPool.servers[k].Ratio < tiedPool.servers[j].Ratio) := by
  have hh : ∃ s ∈ tiedPool.servers, s.isHealthy = true := by
    refine ⟨{ NewServer "http://a" 1 0 with activeConnections := 2 }, by decide, rfl⟩
  exact ⟨⟨by decide, hh⟩, nextServer_min_earliest tiedPool (by decide) hh⟩

/-! The dispatch path of `ServeHTTP`. -/

/-- C4: when selection yields no server, or a server whose health flag is
off, `ServeHTTP` on a non-reserved path answers 503 and leaves the whole
balancer state — every server field and the pool counter — untouched. -/
theorem serveHTTP_unavailable_no_change (wlc : WeightedLeastConnection)
    (path : String) (outcome : FwdOutcome)
    (h1 : ¬ (path = "/health" ∨ path = "/healthz"))
    (h2 : ¬ path = "/metrics")
    (h : wlc.nextServerIdx = none ∨
      ∃ i, wlc.nextServerIdx = some i ∧
        (wlc.servers.getD i default).isHealthy = false) :
    wlc.ServeHTTP path outcome = (wlc, 503) := by
  unfold WeightedLeastConnection.ServeHTTP
  rw [if_neg h1, if_neg h2]
  rcases h with h | ⟨i, hi, hun⟩
  · rw [h]
  · rw [hi]
    simp only [List.getD, List.get?_eq_getElem?] at hun
    simp [hun]

/-- Witness for `serveHTTP_unavailable_no_change`: the empty pool. -/
theorem serveHTTP_unavailable_no_change_witness :
    (NewWeightedLeastConnection []).ServeHTTP "/api" FwdOutcome.ok =
      (NewWeightedLeastConnection [], 503) :=
  serveHTTP_unavailable_no_change (NewWeightedLeastConnection [])
    "/api" FwdOutcome.ok (by decide) (by decide) (Or.inl (by decide))

theorem serveHTTP_dispatch_single (s : Server) (t : Nat) (path : String)
    (o : FwdOutcome) (h1 : ¬ (path = "/health" ∨ path = "/healthz"))
    (h2 : ¬ path = "/metrics") (hh : s.isHealthy = true) (hw : 1 ≤ s.weight)
    (ha : s.activeConnections = 0) :
    WeightedLeastConnection.ServeHTTP ⟨[s], t⟩ path o =
      (⟨[{ s with requestCount := u64add s.requestCount 1 }], u64add t 1⟩,
        statusOfOutcome o) := by
  have hr : s.Ratio = 0 := by
    rw [Ratio_of_healthy s hh (by omega), ha]
    norm_num
  have hidx : (⟨[s], t⟩ : WeightedLeastConnection).nextServerIdx = some 0 := by
    unfold WeightedLeastConnection.nextServerIdx
    rw [if_neg (by simp)]
    rw [nextServerLoop, if_pos (by rw [hr]; norm_num [sentinelRatio])]
    rfl
  have hact : i32add (i32add s.activeConnections 1) (-1) =
      s.activeConnections := by
    rw [ha]; decide
  unfold WeightedLeastConnection.ServeHTTP
  rw [if_neg h1, if_neg h2, hidx]
  dsimp only [modifyIdx, List.getD]
  have hget : (([s].get? 0).getD default) = s := rfl
  rw [hget, hh]
  rw [if_neg (by decide)]
  rw [hact]

theorem serveAll_single (path : String)
    (h1 : ¬ (path = "/health" ∨ path = "/healthz"))
    (h2 : ¬ path = "/metrics") :
    ∀ (outs : List FwdOutcome) (s : Server) (t : Nat),
      s.isHealthy = true → 1 ≤ s.weight → s.activeConnections = 0 →
      s.requestCount < 2 ^ 64 → t < 2 ^ 64 →
      serveAll path outs ⟨[s], t⟩ =
        ⟨[{ s with requestCount := (s.requestCount + outs.length) % 2 ^ 64 }],
          (t + outs.length) % 2 ^ 64⟩
  | [], s, t, hh, hw, ha, hc, ht => by
      unfold serveAll
      rw [List.foldl_nil, List.length_nil, Nat.add_zero, Nat.add_zero,
        Nat.mod_eq_of_lt hc, Nat.mod_eq_of_lt ht]
  | o :: outs, s, t, hh, hw, ha, hc, ht => by
      have hstep := serveHTTP_dispatch_single s t path o h1 h2 hh hw ha
      have hfold : serveAll path (o :: outs) ⟨[s], t⟩ =
          serveAll path outs
            ((WeightedLeastConnection.ServeHTTP ⟨[s], t⟩ path o).1) := by
        simp [serveAll]
      rw [hfold, hstep]
      dsimp only
      rw [serveAll_single path h1 h2 outs
        { s with requestCount := u64add s.requestCount 1 } (u64add t 1)
        hh hw ha (Nat.mod_lt _ (by norm_num)) (Nat.mod_lt _ (by norm_num))]
      have e1 : (u64add s.requestCount 1 + outs.length) % 2 ^ 64 =
          (s.requestCount + (outs.length + 1)) % 2 ^ 64 := by
        unfold u64add; rw [Nat.mod_add_mod]; congr 1; omega
      have e2 : (u64add t 1 + outs.length) % 2 ^ 64 =
          (t + (outs.length + 1)) % 2 ^ 64 := by
        unfold u64add; rw [Nat.mod_add_mod]; congr 1; omega
      dsimp only
      rw [e1, e2]
      rfl

/-- C3: every dispatched request on the non-reserved path increments the
selected server's request counter and the pool counter once and leaves
its connection count balanced by the deferred decrement, whatever the
forwarder outcome (success, error, panic); so after `N`
dispatch-then-complete operations against a fresh one-server pool, that
server shows `activeConnections = 0` and `requestCount = N`, and the pool
counter reads `N`. -/
theorem serveHTTP_counter_pairing (url : String) (w now : Int) (path : String)
    (outs : List FwdOutcome)
    (h1 : ¬ (path = "/health" ∨ path = "/healthz")) (h2 : ¬ path = "/metrics")
    (hw : 1 ≤ w) (hN : outs.length < 2 ^ 64) :
    ∃ s : Server,
      (serveAll path outs
        (NewWeightedLeastConnection [NewServer url w now])).servers = [s] ∧
      s.activeConnections = 0 ∧ s.requestCount = outs.length ∧
      (serveAll path outs
        (NewWeightedLeastConnection [NewServer url w now])).totalRequests =
        outs.length := by
  have h := serveAll_single path h1 h2 outs (NewServer url w now) 0
    rfl hw rfl (by show (0 : Nat) < 2 ^ 64; norm_num) (by norm_num)
  have hrw : NewWeightedLeastConnection [NewServer url w now] =
      (⟨[NewServer url w now], 0⟩ : WeightedLeastConnection) := rfl
  have hlen : (0 + outs.length) % 2 ^ 64 = outs.length := by
    rw [Nat.zero_add, Nat.mod_eq_of_lt hN]
  refine ⟨{ NewServer url w now with requestCount := outs.length },
    ?_, rfl, rfl, ?_⟩
  · rw [hrw, h]
    dsimp only [NewServer]
    rw [hlen]
  · rw [hrw, h]
    dsimp only [NewServer]
    rw [hlen]

/-- Witness for `serveHTTP_counter_pairing`: two dispatches, the second
one a forwarder panic. -/
theorem serveHTTP_counter_pairing_witness :
    ∃ s : Server,
      (serveAll "/api" [FwdOutcome.ok, FwdOutcome.crash]
        (NewWeightedLeastConnection [NewServer "http://a" 1 0])).servers
        = [s] ∧
      s.activeConnections = 0 ∧
      s.requestCount = [FwdOutcome.ok, FwdOutcome.crash].length ∧
      (serveAll "/api" [FwdOutcome.ok, FwdOutcome.crash]
        (NewWeightedLeastConnection [NewServer "http://a" 1 0])).totalRequests
        = [FwdOutcome.ok, FwdOutcome.crash].length :=
  serveHTTP_counter_pairing "http://a" 1 0 "/api"
    [FwdOutcome.ok, FwdOutcome.crash] (by decide) (by decide)
    (by decide) (by decide)

/-! Health probing. -/

/-- Success of a probe as the monitor sees it (`err == nil`): the
transport delivered a response and its status was 200. -/
def probeOk : ProbeResult → Bool
  | .transportError => false
  | .status code => code = 200

/-- C5: one probe of a server always stamps `lastCheckTime`; on success
the server becomes healthy with `failureCount` reset to 0; on failure
(transport error or non-200 status) it becomes unhealthy with
`failureCount` incremented by one (as a 32-bit counter). -/
theorem healthCheck_probe_update (s : Server) (now : Int) (r : ProbeResult) :
    (healthCheckStep s now r).lastCheckTime = now ∧
    (healthCheckStep s now r).isHealthy = probeOk r ∧
    (healthCheckStep s now r).failureCount =
      (if probeOk r = true then 0 else (s.failureCount + 1) % 2 ^ 32) := by
  cases r with
  | transportError => exact ⟨rfl, rfl, rfl⟩
  | status code =>
      by_cases h : code = 200 <;>
        refine ⟨?_, ?_, ?_⟩ <;>
          simp [healthCheckStep, Server.HealthCheck, probeOk, h, u32add]

/-! The pool-wide request counter invariant. -/

/-- The pool counter always reads the (64-bit) sum of the per-server
request counters. -/
def requestTotalInv (wlc : WeightedLeastConnection) : Prop :=
  wlc.totalRequests = (wlc.servers.map Server.requestCount).sum % 2 ^ 64

theorem map_requestCount_modifyIdx_const (l : List Server) (i : Nat)
    (f : Server → Server) (hf : ∀ s, (f s).requestCount = s.requestCount) :
    (modifyIdx l i f).map Server.requestCount = l.map Server.requestCount := by
  induction l generalizing i with
  | nil => rfl
  | cons s rest ih =>
      cases i with
      | zero => simp [modifyIdx, hf]
      | succ n => simp [modifyIdx, ih]

theorem sum_map_requestCount_modifyIdx_inc (l : List Server) (i : Nat)
    (hi : i < l.length) (f : Server → Server)
    (hf : ∀ s, (f s).requestCount = u64add s.requestCount 1) :
    ((modifyIdx l i f).map Server.requestCount).sum % 2 ^ 64 =
      ((l.map Server.requestCount).sum + 1) % 2 ^ 64 := by
  induction l generalizing i with
  | nil => simp at hi
  | cons s rest ih =>
      cases i with
      | zero =>
          simp only [modifyIdx, List.map_cons, List.sum_cons, hf]
          unfold u64add
          rw [Nat.mod_add_mod]
          congr 1
          omega
      | succ n =>
          have hn : n < rest.length := by simpa using hi
          simp only [modifyIdx, List.map_cons, List.sum_cons]
          have h := ih n hn
          have h2 : (s.requestCount +
              ((modifyIdx rest n f).map Server.requestCount).sum) % 2 ^ 64 =
              (s.requestCount + ((rest.map Server.requestCount).sum + 1)) %
                2 ^ 64 :=
            Nat.ModEq.add_left _ h
          rw [h2]
          rfl

theorem healthCheckStep_requestCount (s : Server) (now : Int)
    (r : ProbeResult) :
    (healthCheckStep s now r).requestCount = s.requestCount := by
  cases r with
  | transportError => rfl
  | status code =>
      by_cases h : code = 200 <;>
        simp [healthCheckStep, Server.HealthCheck, h]

theorem map_requestCount_healthChecksFrom (now : Int)
    (probe : Nat → ProbeResult) :
    ∀ (i : Nat) (l : List Server),
      (healthChecksFrom now probe i l).map Server.requestCount =
        l.map Server.requestCount
  | _, [] => rfl
  | i, s :: rest => by
      simp [healthChecksFrom, healthCheckStep_requestCount,
        map_requestCount_healthChecksFrom now probe (i + 1) rest]

/-- C6: the pool-wide running total equals the sum of the per-server
request counters: it holds of a freshly constructed balancer (all
counters zero), is preserved by every `ServeHTTP` call (a dispatch bumps
the pool counter and exactly one server's counter together; rejected and
reserved-path requests touch neither) and by every health-check sweep,
and it is exactly the figure the metrics endpoint reports. -/
theorem totalRequests_eq_sum_requestCounts :
    (∀ servers : List Server, (∀ s ∈ servers, s.requestCount = 0) →
      requestTotalInv (NewWeightedLeastConnection servers)) ∧
    (∀ (wlc : WeightedLeastConnection) (path : String) (o : FwdOutcome),
      requestTotalInv wlc → requestTotalInv ((wlc.ServeHTTP path o).1)) ∧
    (∀ (wlc : WeightedLeastConnection) (now : Int)
      (probe : Nat → ProbeResult),
      requestTotalInv wlc →
        requestTotalInv (wlc.performHealthChecks now probe)) ∧
    (∀ wlc : WeightedLeastConnection, requestTotalInv wlc →
      wlc.handleMetricsEndpoint.2 =
        (wlc.servers.map Server.requestCount).sum % 2 ^ 64) := by
  refine ⟨?_, ?_, ?_, ?_⟩
  · intro servers h
    unfold requestTotalInv NewWeightedLeastConnection
    have hz : (servers.map Server.requestCount).sum = 0 :=
      List.sum_eq_zero fun x hx => by
        obtain ⟨s, hs, rfl⟩ := List.mem_map.mp hx
        exact h s hs
    rw [hz]
    rfl
  · intro wlc path o hInv
    unfold WeightedLeastConnection.ServeHTTP
    by_cases hp1 : path = "/health" ∨ path = "/healthz"
    · rw [if_pos hp1]; exact hInv
    · rw [if_neg hp1]
      by_cases hp2 : path = "/metrics"
      · rw [if_pos hp2]; exact hInv
      · rw [if_neg hp2]
        rcases ho : wlc.nextServerIdx with _ | i
        · exact hInv
        · obtain ⟨hi, -⟩ := nextServerIdx_some_sound wlc i ho
          dsimp only
          rcases hb : (wlc.servers.getD i default).isHealthy with _ | _
          · rw [if_pos (by decide)]
            exact hInv
          · rw [if_neg (by decide)]
            unfold requestTotalInv at hInv ⊢
            dsimp only
            rw [map_requestCount_modifyIdx_const _ i
              (fun s =>
                { s with activeConnections := i32add s.activeConnections (-1) })
              (fun s => rfl)]
            rw [sum_map_requestCount_modifyIdx_inc wlc.servers i hi
              (fun s =>
                { s with activeConnections := i32add s.activeConnections 1,
                         requestCount := u64add s.requestCount 1 })
              (fun s => rfl)]
            unfold u64add
            rw [hInv, Nat.mod_add_mod]
  · intro wlc now probe hInv
    unfold requestTotalInv WeightedLeastConnection.performHealthChecks at *
    dsimp only at *
    rw [map_requestCount_healthChecksFrom]
    exact hInv
  · intro wlc hInv
    exact hInv

/-- Witness for `totalRequests_eq_sum_requestCounts`: the invariant holds
after one dispatch from a fresh one-server pool. -/
theorem totalRequests_eq_sum_requestCounts_witness :
    requestTotalInv ((NewWeightedLeastConnection
      [NewServer "http://a" 1 0]).ServeHTTP "/api" FwdOutcome.ok).1 :=
  totalRequests_eq_sum_requestCounts.2.1
    (NewWeightedLeastConnection [NewServer "http://a" 1 0]) "/api"
    FwdOutcome.ok
    (totalRequests_eq_sum_requestCounts.1 [NewServer "http://a" 1 0]
      (by intro s hs; rw [List.mem_singleton.mp hs]; rfl))

/-- C7: the derived load ratio is `activeConnections / weight` for a
healthy server of positive weight, is the sentinel when the server is
unhealthy or its weight is zero, and the sentinel strictly dominates the
ratio of every eligible (healthy, positive-weight, `int32`-range)
server. -/
theorem Ratio_cases (s : Server) :
    (s.isHealthy = true ∧ 0 < s.weight →
      s.Ratio = (s.activeConnections : ℚ) / (s.weight : ℚ)) ∧
    (s.isHealthy = false ∨ s.weight = 0 → s.Ratio = sentinelRatio) ∧
    (∀ t : Server, t.isHealthy = true → 0 < t.weight →
      t.activeConnections < 2 ^ 31 → t.Ratio < sentinelRatio) := by
  refine ⟨?_, ?_, ?_⟩
  · rintro ⟨hh, hw⟩
    exact Ratio_of_healthy s hh (by omega)
  · rintro (hh | hw)
    · exact Ratio_of_unhealthy s hh
    · exact Ratio_of_weight_zero s hw
  · intro t hh hw hc
    exact Ratio_lt_sentinel t hh (by omega) hc

/-- Witness for `Ratio_cases`: a healthy weight-2 server with one active
connection, and an unhealthy server. -/
theorem Ratio_cases_witness :
    ({ NewServer "http://a" 2 0 with activeConnections := 1 } : Server).Ratio
      = (((1 : Int) : ℚ) / ((2 : Int) : ℚ)) ∧
    ({ NewServer "http://u" 1 0 with isHealthy := false } : Server).Ratio
      = sentinelRatio ∧
    ({ NewServer "http://a" 2 0 with activeConnections := 1 } : Server).Ratio
      < sentinelRatio := by
  refine ⟨(Ratio_cases { NewServer "http://a" 2 0 with
      activeConnections := 1 }).1 ⟨rfl, by decide⟩,
    (Ratio_cases { NewServer "http://u" 1 0 with
      isHealthy := false }).2.1 (Or.inl rfl),
    (Ratio_cases { NewServer "http://u" 1 0 with isHealthy := false }).2.2
      { NewServer "http://a" 2 0 with activeConnections := 1 }
      rfl (by decide) (by decide)⟩

/-- C10: `NewServer` stores any integer weight unvalidated (and marks the
server healthy), the ratio computation treats only weight 0 as the
sentinel case, so a healthy server built with a negative weight and
carrying positive active connections has a strictly negative ratio —
below the ratio of every validly-weighted server. -/
theorem NewServer_no_weight_validation :
    (∀ (url : String) (w now : Int),
      (NewServer url w now).weight = w ∧
      (NewServer url w now).isHealthy = true) ∧
    (∀ (url : String) (now w conn : Int), w < 0 → 0 < conn →
      ({ NewServer url w now with activeConnections := conn } : Server).Ratio
        < 0) ∧
    (∀ s t : Server, s.Ratio < 0 → 1 ≤ t.weight →
      0 ≤ t.activeConnections → s.Ratio < t.Ratio) := by
  refine ⟨fun url w now => ⟨rfl, rfl⟩, ?_, ?_⟩
  · intro url now w conn hw hc
    have h := Ratio_of_healthy
      ({ NewServer url w now with activeConnections := conn }) rfl
      (by show ¬ w = 0; omega)
    rw [h]
    apply div_neg_of_pos_of_neg
    · exact_mod_cast hc
    · exact_mod_cast hw
  · intro s t hs hw hc
    refine lt_of_lt_of_le hs ?_
    rcases ht : t.isHealthy with _ | _
    · rw [Ratio_of_unhealthy t ht]
      norm_num [sentinelRatio]
    · rw [Ratio_of_healthy t ht (by omega)]
      apply div_nonneg
      · exact_mod_cast hc
      · exact_mod_cast (by omega : (0 : Int) ≤ t.weight)

/-- Witness for `NewServer_no_weight_validation`: weight `-1` with five
active connections, against a fresh weight-1 server. -/
theorem NewServer_no_weight_validation_witness :
    (NewServer "http://n" (-1) 0).weight = -1 ∧
    ({ NewServer "http://n" (-1) 0 with
        activeConnections := 5 } : Server).Ratio < 0 ∧
    ({ NewServer "http://n" (-1) 0 with
        activeConnections := 5 } : Server).Ratio <
      (NewServer "http://a" 1 0).Ratio := by
  have hneg := NewServer_no_weight_validation.2.1 "http://n" 0 (-1) 5
    (by norm_num) (by norm_num)
  exact ⟨(NewServer_no_weight_validation.1 "http://n" (-1) 0).1, hneg,
    NewServer_no_weight_validation.2.2 _ (NewServer "http://a" 1 0) hneg
      (by decide) (by decide)⟩

/-! Properties of `parseServerInput`. -/

theorem beginsWith_append (p l : List Char) :
    beginsWith (p ++ l) p = true := by
  unfold beginsWith
  induction p with
  | nil => rfl
  | cons c cs ih => simp [beginsWithAux, beginsWith, ih]

theorem parseEntries_ok (now : Int) :
    ∀ (parts : List (List Char)) (acc : List Server),
      (∀ s ∈ acc, 1 ≤ s.weight ∧
        (beginsWith s.url.data httpScheme = true ∨
          beginsWith s.url.data httpsScheme = true)) →
      ∀ l, parseEntries now parts acc = .ok l →
        l ≠ [] ∧ ∀ s ∈ l, 1 ≤ s.weight ∧
          (beginsWith s.url.data httpScheme = true ∨
            beginsWith s.url.data httpsScheme = true)
  | [], acc, hacc, l, h => by
      rw [parseEntries] at h
      by_cases hlen : acc.length = 0
      · rw [if_pos hlen] at h
        exact absurd h (by simp)
      · rw [if_neg hlen] at h
        have hl : acc.reverse = l := by simpa using h
        subst hl
        refine ⟨?_, fun s hs => hacc s (List.mem_reverse.mp hs)⟩
        simp only [ne_eq, List.reverse_eq_nil_iff]
        intro h0
        rw [h0] at hlen
        simp at hlen
  | part :: rest, acc, hacc, l, h => by
      rw [parseEntries] at h
      by_cases hemp : (trimSpace part).length = 0
      · rw [if_pos hemp] at h
        exact parseEntries_ok now rest acc hacc l h
      · rw [if_neg hemp] at h
        rcases hsp : splitOnChar '/' (trimSpace part) with _ | ⟨raw, tl⟩
        · rw [hsp] at h
          exact absurd h (by simp)
        rcases tl with _ | ⟨wstr, tl2⟩
        · rw [hsp] at h
          exact absurd h (by simp)
        rcases tl2 with _ | ⟨x, tl3⟩
        · rw [hsp] at h
          dsimp only at h
          rcases hat : atoi wstr with _ | w
          · rw [hat] at h
            exact absurd h (by simp)
          · rw [hat] at h
            dsimp only at h
            by_cases hw : w < 1
            · rw [if_pos hw] at h
              exact absurd h (by simp)
            · rw [if_neg hw] at h
              refine parseEntries_ok now rest _ ?_ l h
              intro s hs
              rcases List.mem_cons.mp hs with rfl | hsa
              · refine ⟨by show (1 : Int) ≤ w; omega, ?_⟩
                by_cases hc : (!beginsWith raw httpScheme &&
                    !beginsWith raw httpsScheme) = true
                · rw [if_pos hc]
                  exact Or.inl (beginsWith_append httpScheme raw)
                · rw [if_neg hc]
                  rcases hA : beginsWith raw httpScheme with _ | _
                  · rcases hB : beginsWith raw httpsScheme with _ | _
                    · exact absurd (by rw [hA, hB]; rfl) hc
                    · exact Or.inr hB
                  · exact Or.inl hA
              · exact hacc s hsa
        · rw [hsp] at h
          exact absurd h (by simp)

theorem parseEntries_badWeight (now : Int) :
    ∀ (parts : List (List Char)) (acc : List Server),
      (∃ part ∈ parts, badWeightPart part = true) →
      ∃ e, parseEntries now parts acc = .error e
  | [], _, h => by simp at h
  | part :: rest, acc, h => by
      rw [parseEntries]
      by_cases hemp : (trimSpace part).length = 0
      · rw [if_pos hemp]
        refine parseEntries_badWeight now rest acc ?_
        rcases h with ⟨p, hp, hbad⟩
        rcases List.mem_cons.mp hp with rfl | hpr
        · exact absurd hbad (by simp [badWeightPart, hemp])
        · exact ⟨p, hpr, hbad⟩
      · rw [if_neg hemp]
        rcases hsp : splitOnChar '/' (trimSpace part) with _ | ⟨raw, tl⟩
        · exact ⟨_, rfl⟩
        rcases tl with _ | ⟨wstr, tl2⟩
        · exact ⟨_, rfl⟩
        rcases tl2 with _ | ⟨x, tl3⟩
        · dsimp only
          rcases hat : atoi wstr with _ | w
          · exact ⟨_, rfl⟩
          · dsimp only
            by_cases hw : w < 1
            · rw [if_pos hw]; exact ⟨_, rfl⟩
            · rw [if_neg hw]
              refine parseEntries_badWeight now rest _ ?_
              rcases h with ⟨p, hp, hbad⟩
              rcases List.mem_cons.mp hp with rfl | hpr
              · exfalso
                simp [badWeightPart, hsp, hat] at hbad
                exact hw hbad.2
              · exact ⟨p, hpr, hbad⟩
        · exact ⟨_, rfl⟩

theorem parseEntries_prepend_step (now : Int) (part : List Char)
    (rest : List (List Char)) (acc : List Server) (raw wstr : List Char)
    (w : Int) (htrim : trimSpace part = part)
    (hsp : splitOnChar '/' part = [raw, wstr])
    (hna : beginsWith raw httpScheme = false)
    (hnb : beginsWith raw httpsScheme = false)
    (hat : atoi wstr = some w) (hw : ¬ w < 1) :
    parseEntries now (part :: rest) acc =
      parseEntries now rest
        (NewServer (String.mk (httpScheme ++ raw)) w now :: acc) := by
  rw [parseEntries]
  rw [htrim]
  have hne : ¬ part.length = 0 := by
    intro h0
    rw [List.length_eq_zero.mp h0] at hsp
    simp [splitOnChar] at hsp
  rw [if_neg hne, hsp]
  simp only [hna, hnb, hat, Bool.not_false, Bool.and_self, if_true]
  rw [if_neg hw]

/-- C9: configuration parsing rejects (with an error, constructing no
usable server list) any entry whose weight is not an integer `≥ 1` and
any input yielding zero valid entries, and prepends `http://` to an
address missing a scheme: a successful parse returns a non-empty list of
servers, all with weight `≥ 1` and a schemed address. -/
theorem parseServerInput_spec (input : String) (now : Int) :
    (∀ l, parseServerInput input now = .ok l →
      l ≠ [] ∧ ∀ s ∈ l, 1 ≤ s.weight ∧
        (beginsWith s.url.data httpScheme = true ∨
          beginsWith s.url.data httpsScheme = true)) ∧
    ((∃ part ∈ splitOnChar ',' (trimSpace input.data),
        badWeightPart part = true) →
      ∃ e, parseServerInput input now = .error e) ∧
    (∀ (part : List Char) (rest : List (List Char)) (acc : List Server)
      (raw wstr : List Char) (w : Int), trimSpace part = part →
      splitOnChar '/' part = [raw, wstr] →
      beginsWith raw httpScheme = false →
      beginsWith raw httpsScheme = false →
      atoi wstr = some w → ¬ w < 1 →
      parseEntries now (part :: rest) acc =
        parseEntries now rest
          (NewServer (String.mk (httpScheme ++ raw)) w now :: acc)) := by
  refine ⟨?_, ?_, ?_⟩
  · intro l h
    exact parseEntries_ok now _ [] (by simp) l h
  · intro h
    exact parseEntries_badWeight now _ [] h
  · intro part rest acc raw wstr w h1 h2 h3 h4 h5 h6
    exact parseEntries_prepend_step now part rest acc raw wstr w
      h1 h2 h3 h4 h5 h6

/-- Witness for `parseServerInput_spec`: a zero weight is rejected, and a
schemeless address gets `http://` prepended. -/
theorem parseServerInput_spec_witness :
    (∃ e, parseServerInput "b/0" 7 = .error e) ∧
    parseEntries 7 ["localhost:8081/5".data] [] =
      parseEntries 7 []
        [NewServer (String.mk (httpScheme ++ "localhost:8081".data)) 5 7] := by
  refine ⟨(parseServerInput_spec "b/0" 7).2.1 (by decide), ?_⟩
  exact (parseServerInput_spec "z" 7).2.2 "localhost:8081/5".data []
    [] "localhost:8081".data "5".data 5 (by decide) (by decide)
    (by decide) (by decide) (by decide) (by decide)

end Balancer
